import Mathlib

/-!
# Shallow embedding of the retrieval-and-generation engine

This file embeds, in Lean 4, the components of the backend that the
specification describes: the circuit breaker
(`app/services/circuit_breaker.py`), the rate limiter
(`app/services/rate_limiter.py`), the response cache
(`app/services/response_cache.py`), the chunker
(`app/services/chunk_service.py`) and the retrieval helpers of the RAG
service (`app/services/rag_service.py`).  Python integers are modelled by
`Int`/`Nat`, Python floats by `ℚ` (the properties checked here are
sign/ordering facts that are exact in either arithmetic), `datetime`
values by `Int` seconds, and fallible code by `Option`.  External
collaborators (the tiktoken encoder, numpy's cosine similarity, hashlib's
sha256) are modelled as function parameters.
-/

namespace KiroSpec

/-! ## Circuit breaker (`app/services/circuit_breaker.py`) -/

/-- The three circuit-breaker states (`CircuitState` in the source). -/
inductive CircuitState where
  | closed
  | open
  | halfOpen
deriving DecidableEq, Repr

/-- Mutable fields of the `CircuitBreaker` object.  `last_failure_time` is
`None` until the first failure, hence an `Option`.  Time is in seconds. -/
structure CBState where
  state : CircuitState
  failure_count : Nat
  success_count : Nat
  last_failure_time : Option Int
deriving DecidableEq, Repr

/-- Constructor arguments of `CircuitBreaker.__init__`. -/
structure CBConfig where
  failure_threshold : Nat
  recovery_timeout : Int
  success_threshold : Nat

/-- The state built by `CircuitBreaker.__init__`. -/
def CBState.init : CBState :=
  { state := CircuitState.closed
    failure_count := 0
    success_count := 0
    last_failure_time := none }

/-- `CircuitBreaker._on_success`. -/
def onSuccess (cfg : CBConfig) (s : CBState) : CBState :=
  if s.state = CircuitState.halfOpen then
    let s := { s with success_count := s.success_count + 1 }
    if s.success_count ≥ cfg.success_threshold then
      { s with state := CircuitState.closed, failure_count := 0, success_count := 0 }
    else s
  else if s.state = CircuitState.closed then
    { s with failure_count := 0 }
  else s

/-- `CircuitBreaker._on_failure`; `now` is the value of `datetime.now()`. -/
def onFailure (cfg : CBConfig) (now : Int) (s : CBState) : CBState :=
  let s := { s with failure_count := s.failure_count + 1,
                    last_failure_time := some now }
  if s.state = CircuitState.halfOpen then
    { s with state := CircuitState.open, success_count := 0 }
  else if s.failure_count ≥ cfg.failure_threshold then
    { s with state := CircuitState.open }
  else s

/-- Whether the wrapped operation would succeed or raise, were it invoked. -/
inductive CallOutcome where
  | ok
  | fail
deriving DecidableEq, Repr

/-- Observable outcome of one `CircuitBreaker.call`:  the call ran and
returned (`success`), ran and raised the operation's own error after being
recorded (`failure`), was rejected with the distinct `CircuitBreakerError`
without running (`rejected`), or hit the unreachable open-with-no-failure-time
state where the Python subtraction would raise a `TypeError` (`invalid`). -/
inductive CallResult where
  | success
  | failure
  | rejected
  | invalid
deriving DecidableEq, Repr

/-- `CircuitBreaker.call`.  `outcome` stands for the behaviour the wrapped
`func` would have if it were invoked. -/
def CBState.call (cfg : CBConfig) (s : CBState) (now : Int) (outcome : CallOutcome) :
    CallResult × CBState :=
  let exec : CBState → CallResult × CBState := fun s1 =>
    match outcome with
    | CallOutcome.ok => (CallResult.success, onSuccess cfg s1)
    | CallOutcome.fail => (CallResult.failure, onFailure cfg now s1)
  if s.state = CircuitState.open then
    match s.last_failure_time with
    | none => (CallResult.invalid, s)
    | some t =>
      if now - t > cfg.recovery_timeout then
        exec { s with state := CircuitState.halfOpen, success_count := 0 }
      else
        (CallResult.rejected, s)
  else exec s

/-- Fold `_on_failure` over a list of failure times (consecutive failures). -/
def failMany (cfg : CBConfig) (s : CBState) : List Int → CBState
  | [] => s
  | t :: ts => failMany cfg (onFailure cfg t s) ts

/-! ## Cost computation (`RAGService._calculate_cost`) -/

/-- `RAGService._calculate_cost`.  The token counts are Python ints and the
result a Python float; the pricing constants `0.28`, `0.028` and `0.42`
(USD per million tokens) are exact in `ℚ`. -/
def calculateCost (prompt_tokens completion_tokens cached_tokens : Int) : ℚ :=
  let input_cost : ℚ := (prompt_tokens - cached_tokens : Int) * 0.28 / 1000000
  let cached_cost : ℚ := (cached_tokens : Int) * 0.028 / 1000000
  let output_cost : ℚ := (completion_tokens : Int) * 0.42 / 1000000
  input_cost + cached_cost + output_cost

end KiroSpec

namespace KiroSpec

/-! ## Theorems for the circuit breaker claims -/

theorem failMany_append (cfg : CBConfig) (s : CBState) (ts : List Int) (t : Int) :
    failMany cfg s (ts ++ [t]) = onFailure cfg t (failMany cfg s ts) := by
  induction ts generalizing s with
  | nil => rfl
  | cons a l ih => simp [failMany, ih]

theorem failMany_closed_count (cfg : CBConfig) (s : CBState) (ts : List Int)
    (hstate : s.state = CircuitState.closed) (hcount : s.failure_count = 0)
    (hlt : ts.length < cfg.failure_threshold) :
    (failMany cfg s ts).state = CircuitState.closed ∧
      (failMany cfg s ts).failure_count = ts.length := by
  induction ts using List.reverseRecOn with
  | nil => exact ⟨hstate, hcount⟩
  | append_singleton l t ih =>
    have hlen : l.length < cfg.failure_threshold := by
      simp at hlt; omega
    obtain ⟨h1, h2⟩ := ih (by simpa using Nat.lt_of_le_of_lt (Nat.le_succ _) (by simpa using hlt))
    rw [failMany_append]
    have hnot : ¬ (failMany cfg s l).failure_count + 1 ≥ cfg.failure_threshold := by
      simp at hlt; omega
    constructor
    · simp [onFailure, h1, hnot]
    · simp [onFailure, h1, hnot, h2, apply_ite CBState.failure_count]

/-- **C4.** With `failure_threshold = F`, from a Closed state with a zero
consecutive-failure counter: any run of `k < F` consecutive recorded failures
leaves the breaker Closed with counter `k` (it does not open before `F`); a
run of exactly `F` consecutive failures leaves it Open (it opens at the
`F`-th, hence in particular any run of `≥ F` consecutive failures leaves it
Open); and every success recorded while Closed resets the failure counter
to zero. -/
theorem breaker_opens_after_exactly_threshold_failures
    (cfg : CBConfig) (s : CBState)
    (hF : 0 < cfg.failure_threshold)
    (hstate : s.state = CircuitState.closed)
    (hcount : s.failure_count = 0) :
    (∀ ts : List Int, ts.length < cfg.failure_threshold →
        (failMany cfg s ts).state = CircuitState.closed ∧
        (failMany cfg s ts).failure_count = ts.length) ∧
    (∀ ts : List Int, cfg.failure_threshold ≤ ts.length →
        (failMany cfg s ts).state = CircuitState.open) ∧
    (∀ s' : CBState, s'.state = CircuitState.closed →
        (onSuccess cfg s').failure_count = 0) := by
  refine ⟨fun ts h => failMany_closed_count cfg s ts hstate hcount h, ?_, ?_⟩
  · intro ts hle
    -- split the run at the F-th failure
    obtain ⟨l1, l2, hsplit, hlen⟩ :
        ∃ l1 l2, ts = l1 ++ l2 ∧ l1.length = cfg.failure_threshold :=
      ⟨ts.take cfg.failure_threshold, ts.drop cfg.failure_threshold,
        (List.take_append_drop _ _).symm, List.length_take_of_le hle⟩
    subst hsplit
    -- after the first F failures the breaker is Open
    have hopen : (failMany cfg s l1).state = CircuitState.open := by
      obtain ⟨l0, t, rfl⟩ : ∃ l0 t, l1 = l0 ++ [t] := by
        rcases List.eq_nil_or_concat l1 with h | ⟨l0, t, rfl⟩
        · subst h; simp at hlen; omega
        · exact ⟨l0, t, by simp⟩
      have hl0 : l0.length < cfg.failure_threshold := by simp at hlen; omega
      obtain ⟨h1, h2⟩ := failMany_closed_count cfg s l0 hstate hcount hl0
      rw [failMany_append]
      have : (failMany cfg s l0).failure_count + 1 ≥ cfg.failure_threshold := by
        simp at hlen; omega
      simp [onFailure, h1, this]
    -- and further failures keep it Open
    clear hlen hle
    induction l2 using List.reverseRecOn with
    | nil => simpa using hopen
    | append_singleton l2' t ih =>
      rw [← List.append_assoc, failMany_append]
      simp only [onFailure]
      rcases h : (failMany cfg s (l1 ++ l2')).state with _ | _ | _
      · exact absurd (ih) (by simp [h])
      · by_cases hge : (failMany cfg s (l1 ++ l2')).failure_count + 1 ≥ cfg.failure_threshold <;>
          simp [h, hge]
      · simp [h]
  · intro s' h
    simp [onSuccess, h]

/-- Closed witness for `breaker_opens_after_exactly_threshold_failures`
at `F = 2`, checking a 1-failure run stays Closed and a 2-failure run opens. -/
theorem breaker_opens_after_exactly_threshold_failures_witness :
    let cfg : CBConfig := ⟨2, 60, 2⟩
    (failMany cfg CBState.init [5]).state = CircuitState.closed ∧
      (failMany cfg CBState.init [5, 9]).state = CircuitState.open := by
  intro cfg
  have h := breaker_opens_after_exactly_threshold_failures cfg CBState.init
    (by decide) (by decide) (by decide)
  exact ⟨(h.1 [5] (by decide)).1, h.2.1 [5, 9] (by decide)⟩

/-- **C5.** A call attempted while the breaker is Open, before the recovery
timeout has elapsed since the last recorded failure, is rejected with the
distinct circuit-open error; the wrapped operation is not invoked (the
result is `rejected` no matter what the operation would have done) and the
state — including both counters and the last-failure time — is returned
unchanged. -/
theorem open_breaker_rejects_without_recording
    (cfg : CBConfig) (s : CBState) (now t : Int) (outcome : CallOutcome)
    (hstate : s.state = CircuitState.open)
    (hlast : s.last_failure_time = some t)
    (hwithin : now - t ≤ cfg.recovery_timeout) :
    CBState.call cfg s now outcome = (CallResult.rejected, s) := by
  simp [CBState.call, hstate, hlast, not_lt.mpr hwithin]

/-- Closed witness for `open_breaker_rejects_without_recording`: a concrete
Open state 10 seconds after its last failure, with a 60-second timeout. -/
theorem open_breaker_rejects_without_recording_witness :
    let s : CBState := ⟨CircuitState.open, 5, 0, some 100⟩
    CBState.call ⟨5, 60, 2⟩ s 110 CallOutcome.ok = (CallResult.rejected, s) :=
  open_breaker_rejects_without_recording ⟨5, 60, 2⟩ _ 110 100 CallOutcome.ok
    (by decide) (by decide) (by decide)

/-! ## Theorems for the cost claim -/

/-- **C9, counterexample.** The claim quantifies over all non-negative
token counts, but with `prompt_tokens = 0`, `completion_tokens = 0` and
`cached_tokens = 1` the code computes `(0 - 1)·0.28/10⁶ + 1·0.028/10⁶ + 0`,
which is negative. -/
theorem cost_negative_when_cached_exceeds_prompt :
    (0 : Int) ≤ 0 ∧ (0 : Int) ≤ 0 ∧ (0 : Int) ≤ 1 ∧
      calculateCost 0 0 1 < 0 := by
  refine ⟨le_refl 0, le_refl 0, by norm_num, ?_⟩
  norm_num [calculateCost]

/-- **C9, amended.** For all non-negative prompt-token, completion-token and
cached-token counts in which the cached count does not exceed the prompt
count (the only situation a provider can report, since cached tokens are a
subset of prompt tokens), the computed cost is non-negative. -/
theorem cost_nonneg_of_cached_le_prompt
    (prompt completion cached : Int)
    (hp : 0 ≤ prompt) (hc : 0 ≤ completion) (hca : 0 ≤ cached)
    (hle : cached ≤ prompt) :
    0 ≤ calculateCost prompt completion cached := by
  unfold calculateCost
  have h1 : (0 : ℚ) ≤ (prompt - cached : Int) * 0.28 / 1000000 := by
    apply div_nonneg _ (by norm_num)
    apply mul_nonneg _ (by norm_num)
    exact_mod_cast sub_nonneg.mpr hle
  have h2 : (0 : ℚ) ≤ (cached : Int) * 0.028 / 1000000 := by
    apply div_nonneg _ (by norm_num)
    apply mul_nonneg _ (by norm_num)
    exact_mod_cast hca
  have h3 : (0 : ℚ) ≤ (completion : Int) * 0.42 / 1000000 := by
    apply div_nonneg _ (by norm_num)
    apply mul_nonneg _ (by norm_num)
    exact_mod_cast hc
  positivity

/-- Closed witness for `cost_nonneg_of_cached_le_prompt` at a concrete
provider report (1000 prompt, 200 completion, 300 cached tokens). -/
theorem cost_nonneg_of_cached_le_prompt_witness :
    0 ≤ calculateCost 1000 200 300 :=
  cost_nonneg_of_cached_le_prompt 1000 200 300 (by norm_num) (by norm_num)
    (by norm_num) (by norm_num)

/-! ## Retrieval helpers (`app/services/rag_service.py`) -/

/-- `RetrievedChunk`.  The Python `metadata` dict's fields that the engine
reads (`start_char`, `end_char`, `token_count`) are flattened into the
structure; `similarity` is a Python float, modelled by `ℚ`. -/
structure RetrievedChunk where
  chunk_id : String
  document_id : String
  content : String
  similarity : ℚ
  start_char : Int
  end_char : Int
  token_count : Nat
deriving DecidableEq, Repr

/-- `RAGService._apply_focus_boost`: for each chunk, if either focus
endpoint lies within the chunk's inclusive character range, the similarity
is replaced by `min(1.0, similarity + 0.15)`; the (mutated) list is
returned. -/
def applyFocusBoost (chunks : List RetrievedChunk) (focus_start focus_end : Int) :
    List RetrievedChunk :=
  chunks.map fun c =>
    if (focus_start ≥ c.start_char ∧ focus_start ≤ c.end_char) ∨
       (focus_end ≥ c.start_char ∧ focus_end ≤ c.end_char) then
      { c with similarity := min 1 (c.similarity + 0.15) }
    else c

/-- The two character ranges `[focus_start, focus_end]` and
`[c.start_char, c.end_char]` have a point in common. -/
def rangesOverlap (focus_start focus_end : Int) (c : RetrievedChunk) : Prop :=
  focus_start ≤ c.end_char ∧ c.start_char ≤ focus_end

/-- The focus span strictly contains the chunk's range. -/
def strictlyContains (focus_start focus_end : Int) (c : RetrievedChunk) : Prop :=
  focus_start < c.start_char ∧ c.end_char < focus_end

/-- A document summary (`document_summary.py` collaborator output): a
document id plus its precomputed summary embedding. -/
structure DocSummary where
  document_id : String
  embedding : List ℚ
deriving Repr

/-- `RAGService._select_relevant_documents`.  `simFn` models
`RAGService._cosine_similarity`, whose numerics are delegated to numpy;
`summaries` is the result of `get_all_summaries()` and `all_docs` the
result of `vector_store.get_all_document_ids()`.  When no summaries exist
the code returns `all_docs[:top_k] if all_docs else []`; otherwise it sorts
`(document_id, similarity)` pairs by similarity descending (a stable sort,
like Python's `list.sort`) and keeps the first `top_k` ids. -/
def selectRelevantDocuments (simFn : List ℚ → List ℚ → ℚ)
    (query_embedding : List ℚ) (summaries : List DocSummary)
    (all_docs : List String) (top_k : Nat) : List String :=
  if summaries.isEmpty then
    if all_docs.isEmpty then [] else all_docs.take top_k
  else
    let similarities := summaries.map fun s =>
      (s.document_id, simFn query_embedding s.embedding)
    let sorted := similarities.mergeSort fun a b => decide (b.2 ≤ a.2)
    (sorted.take top_k).map Prod.fst

/-! ## Theorems for the focus-boost claim -/

/-- **C1, counterexample.** A chunk with range `[10, 20]` and similarity
`0.7` overlaps a focus span `[0, 100]` (the span strictly contains it), yet
`_apply_focus_boost` leaves its similarity at `0.7` instead of the boosted
`min(1.0, 0.7 + 0.15) = 0.85` the claim requires. -/
theorem focus_boost_misses_contained_chunk :
    let c : RetrievedChunk := ⟨"c1", "d1", "text", 0.7, 10, 20, 50⟩
    rangesOverlap 0 100 c ∧
      applyFocusBoost [c] 0 100 = [c] ∧
      c.similarity ≠ min 1 (c.similarity + 0.15) := by
  refine ⟨⟨by norm_num, by norm_num⟩, ?_, by norm_num⟩
  norm_num [applyFocusBoost]

/-- **C1, amended.** Provided `focus_start ≤ focus_end`: every chunk whose
range overlaps the focus span *other than by the focus span strictly
containing the chunk's range* has its similarity replaced by
`min(1.0, similarity + 0.15)`; a chunk whose range is strictly contained in
the focus span, and every chunk whose range does not overlap the focus
span, keeps its similarity (and all other fields) unchanged.  The output
list is the input list with exactly these per-chunk updates. -/
theorem focus_boost_boosts_endpoint_overlaps
    (chunks : List RetrievedChunk) (focus_start focus_end : Int)
    (hwf : focus_start ≤ focus_end) :
    (applyFocusBoost chunks focus_start focus_end).length = chunks.length ∧
    ∀ i : Nat, ∀ hi : i < chunks.length,
      let c := chunks.get ⟨i, hi⟩
      let c' := (applyFocusBoost chunks focus_start focus_end).get
        ⟨i, by simpa [applyFocusBoost] using hi⟩
      (rangesOverlap focus_start focus_end c ∧
          ¬ strictlyContains focus_start focus_end c →
        c' = { c with similarity := min 1 (c.similarity + 0.15) }) ∧
      (¬ rangesOverlap focus_start focus_end c → c' = c) ∧
      (strictlyContains focus_start focus_end c → c' = c) := by
  refine ⟨by simp [applyFocusBoost], ?_⟩
  intro i hi
  simp only [applyFocusBoost, List.get_eq_getElem, List.getElem_map]
  set c := chunks[i] with hc
  refine ⟨?_, ?_, ?_⟩
  · rintro ⟨hov, hnc⟩
    rw [if_pos]
    unfold rangesOverlap at hov
    unfold strictlyContains at hnc
    omega
  · intro hnov
    rw [if_neg]
    unfold rangesOverlap at hnov
    omega
  · intro hcont
    rw [if_neg]
    unfold strictlyContains at hcont
    omega

/-- Closed witness for `focus_boost_boosts_endpoint_overlaps`: a chunk with
range `[0, 100]`, similarity `0.8`, focus span `[50, 150]` — the overlap is
not a strict containment, so the similarity becomes `0.95`. -/
theorem focus_boost_boosts_endpoint_overlaps_witness :
    (applyFocusBoost [⟨"c1", "d1", "t", 0.8, 0, 100, 40⟩] 50 150).get
        ⟨0, by simp [applyFocusBoost]⟩ =
      ⟨"c1", "d1", "t", min 1 (0.8 + 0.15), 0, 100, 40⟩ := by
  have h := (focus_boost_boosts_endpoint_overlaps
    [⟨"c1", "d1", "t", 0.8, 0, 100, 40⟩] 50 150 (by norm_num)).2 0 (by simp)
  have h2 := h.1 ⟨⟨by norm_num, by norm_num⟩, fun hcon => by
    simp only [strictlyContains] at hcon
    norm_num at hcon⟩
  simpa using h2

/-! ## Theorems for the document-selection fallback claim -/

/-- **C2.** `retrieve_context` with no `document_id` and no document
summaries: the code evaluates `all_docs[:top_k]` in the fallback branch, so
with four known documents and the default `top_k = 3` only the first three
are selected — the fourth known document is not searched, although the
fallback's own comment and log line say all documents are searched.  (This
is the `code_bug` evaluation at the failing input.) -/
theorem fallback_searches_only_top_k_documents :
    selectRelevantDocuments (fun _ _ => 0) [] []
        ["doc1", "doc2", "doc3", "doc4"] 3 = ["doc1", "doc2", "doc3"] ∧
      "doc4" ∉ selectRelevantDocuments (fun _ _ => 0) [] []
        ["doc1", "doc2", "doc3", "doc4"] 3 := by
  constructor
  · rfl
  · decide

/-! ## Rate limiter (`app/services/rate_limiter.py`) -/

/-- `RateLimiter.check_query_limit` for one session: `ts` is the session's
stored timestamp list, `now` is `datetime.now()` in seconds, and the result
is the returned boolean together with the session's new timestamp list.
The code first replaces the list by the timestamps newer than
`now - 1 hour`, then rejects if their count has reached the hourly limit,
and otherwise appends `now` and allows. -/
def checkQueryLimit (queries_per_hour : Nat) (ts : List Int) (now : Int) :
    Bool × List Int :=
  let kept := ts.filter fun t => t > now - 3600
  if kept.length ≥ queries_per_hour then (false, kept)
  else (true, kept ++ [now])

/-- Run `check_query_limit` for one session at each time in `qs`, from the
stored list `ts`, collecting the returned booleans. -/
def runQueries (queries_per_hour : Nat) (ts : List Int) :
    List Int → List Bool × List Int
  | [] => ([], ts)
  | now :: qs =>
    let r := checkQueryLimit queries_per_hour ts now
    let rest := runQueries queries_per_hour r.2 qs
    (r.1 :: rest.1, rest.2)

/-! ## Theorems for the rate-limiter claim -/

theorem runQueries_within_window (queries_per_hour : Nat) :
    ∀ (qs ts : List Int),
      (∀ x ∈ ts, ∀ t ∈ qs, x > t - 3600) →
      qs.Pairwise (fun a b => b - a < 3600) →
      (runQueries queries_per_hour ts qs).1 =
        (List.range qs.length).map fun i =>
          decide (ts.length + i < queries_per_hour) := by
  intro qs
  induction qs with
  | nil => intro ts _ _; rfl
  | cons now qs ih =>
    intro ts hinv hpw
    have hkeep : ts.filter (fun t => t > now - 3600) = ts :=
      List.filter_eq_self.mpr fun x hx => by
        simpa using hinv x hx now (by simp)
    have hpw' : qs.Pairwise (fun a b => b - a < 3600) := hpw.tail
    have hnow : ∀ t ∈ qs, now > t - 3600 := by
      intro t ht
      have := (List.pairwise_cons.mp hpw).1 t ht
      omega
    rw [List.length_cons, List.range_succ_eq_map, List.map_cons, List.map_map]
    by_cases hge : ts.length ≥ queries_per_hour
    · have h1 : checkQueryLimit queries_per_hour ts now = (false, ts) := by
        simp [checkQueryLimit, hkeep, hge]
      have h2 := ih ts (fun x hx t ht => hinv x hx t (by simp [ht])) hpw'
      simp only [runQueries, h1, h2]
      congr 1
      · have hh : ¬ (ts.length + 0 < queries_per_hour) := by omega
        simp [hh]
        omega
      · apply List.map_congr_left
        intro i _
        simp only [Function.comp_apply, decide_eq_decide]
        omega
    · have h1 : checkQueryLimit queries_per_hour ts now = (true, ts ++ [now]) := by
        simp [checkQueryLimit, hkeep]; omega
      have hinv' : ∀ x ∈ ts ++ [now], ∀ t ∈ qs, x > t - 3600 := by
        intro x hx t ht
        rcases List.mem_append.mp hx with h | h
        · exact hinv x h t (by simp [ht])
        · simp at h; subst h; exact hnow t ht
      have h2 := ih (ts ++ [now]) hinv' hpw'
      simp only [runQueries, h1, h2]
      congr 1
      · have hh : ts.length + 0 < queries_per_hour := by omega
        simp [hh]
        omega
      · apply List.map_congr_left
        intro i _
        simp only [Function.comp_apply, decide_eq_decide, List.length_append,
          List.length_cons, List.length_nil]
        omega

/-- **C8.** Per-call semantics of `check_query_limit`: the stored
timestamps not newer than one hour before `now` are first discarded; if the
remaining count is below the hourly limit, `now` is appended and `true` is
returned, otherwise `false` is returned and the session's list is left at
exactly the discarded-filter result (no further mutation).  Consequently a
session issuing `limit + 1` queries whose timestamps pairwise differ by
less than one hour, starting from an empty record, is allowed on the first
`limit` calls and rejected on the `limit + 1`-th. -/
theorem rate_limiter_sliding_window
    (queries_per_hour : Nat) (ts : List Int) (now : Int) (qs : List Int)
    (hlen : qs.length = queries_per_hour + 1)
    (hpw : qs.Pairwise (fun a b => b - a < 3600)) :
    (checkQueryLimit queries_per_hour ts now =
      (let kept := ts.filter fun t => t > now - 3600
       if kept.length < queries_per_hour then (true, kept ++ [now])
       else (false, kept))) ∧
    (runQueries queries_per_hour [] qs).1 =
      List.replicate queries_per_hour true ++ [false] := by
  constructor
  · simp only [checkQueryLimit]
    rcases lt_or_ge (ts.filter fun t => t > now - 3600).length queries_per_hour with h | h
    · rw [if_neg (by omega), if_pos h]
    · rw [if_pos h, if_neg (by omega)]
  · have h := runQueries_within_window queries_per_hour qs []
      (by intro x hx; simp at hx) hpw
    rw [h, hlen, List.range_succ, List.map_append]
    congr 1
    · refine List.eq_replicate_iff.mpr ⟨by simp, ?_⟩
      intro b hb
      simp only [List.mem_map, List.mem_range] at hb
      obtain ⟨i, hi, rfl⟩ := hb
      simp; omega
    · simp

/-- Closed witness for `rate_limiter_sliding_window`, with an hourly limit
of 2 and three queries inside one hour: allowed, allowed, rejected. -/
theorem rate_limiter_sliding_window_witness :
    (runQueries 2 [] [0, 10, 20]).1 = [true, true, false] :=
  (rate_limiter_sliding_window 2 [] 0 [0, 10, 20] (by decide)
    (by decide)).2

/-! ## Chunker (`app/services/chunk_service.py`)

`ChunkService.count_tokens` defers to the external tiktoken encoder
(`len(self._encoder.encode(text))`), so the token counter is a parameter
`tok : String → Nat` throughout; likewise the sentence-boundary regex split
`re.split(r"(?<=[.!?])\s+", text)` used only for oversized paragraphs is a
parameter `sentSplit`.  The class constants are `TARGET_TOKENS = 800`,
`MAX_TOKENS = 1024`, `MIN_TOKENS = 512`, and
`overlap_tokens = int(800 * 0.15) = 120`. -/

/-- `Chunk` (the chunker's dataclass). -/
structure Chunk where
  index : Nat
  content : String
  token_count : Nat
  start_char : Int
  end_char : Int
deriving DecidableEq, Repr

/-- Python's `markdown.split("\n\n")` on the character list: split on each
non-overlapping occurrence of a double newline, scanning left to right. -/
def splitParagraphsAux : List Char → List Char → List (List Char)
  | [], acc => [acc.reverse]
  | '\n' :: '\n' :: rest, acc => acc.reverse :: splitParagraphsAux rest []
  | c :: rest, acc => splitParagraphsAux rest (c :: acc)

/-- `markdown.split("\n\n")`. -/
def splitParagraphs (markdown : String) : List String :=
  (splitParagraphsAux markdown.data []).map fun l => String.mk l

/-- `"\n\n".join(texts)` (resp. `" ".join(...)` with another separator). -/
def joinWith (sep : String) (texts : List String) : String :=
  String.intercalate sep texts

/-- The `Chunk(...)` constructor call used at each flush: the recorded
token count re-tokenizes the joined content. -/
def mkChunk (tok : String → Nat) (sep : String) (idx : Nat)
    (texts : List String) (startc endc : Int) : Chunk :=
  { index := idx
    content := joinWith sep texts
    token_count := tok (joinWith sep texts)
    start_char := startc
    end_char := endc }

/-- `ChunkService._get_overlap`, iterating `reversed(texts)` and keeping a
trailing run whose token total stays within `target`. -/
def getOverlapAux (tok : String → Nat) (target : Nat) :
    List Char → List String → List String → Nat → List String × Nat
  | _, [], acc, total => (acc, total)
  | marker, t :: rest, acc, total =>
    if total + tok t ≤ target then
      getOverlapAux tok target marker rest (t :: acc) (total + tok t)
    else (acc, total)

/-- `ChunkService._get_overlap texts target`. -/
def getOverlap (tok : String → Nat) (texts : List String) (target : Nat) :
    List String × Nat :=
  getOverlapAux tok target [] texts.reverse [] 0

/-- Loop state of `_split_by_sentences`. -/
structure SentAcc where
  chunks : List Chunk
  current_sentences : List String
  current_tokens : Nat
  current_start : Int
  char_pos : Int

/-- One iteration of the sentence loop in `_split_by_sentences`. -/
def sentStep (tok : String → Nat) (start_index : Nat) (acc : SentAcc)
    (sentence : String) : SentAcc :=
  let sent_tokens := tok sentence
  let sent_len : Int := (sentence.length : Int) + 1
  let acc :=
    if acc.current_tokens + sent_tokens > 800 ∧ acc.current_sentences ≠ [] then
      let flushed := acc.chunks ++
        [mkChunk tok " " (start_index + acc.chunks.length)
          acc.current_sentences acc.current_start acc.char_pos]
      let kept :=
        if acc.current_sentences.length > 2 then
          acc.current_sentences.drop (acc.current_sentences.length - 2)
        else []
      { acc with chunks := flushed
                 current_sentences := kept
                 current_tokens := (kept.map tok).sum
                 current_start := acc.char_pos }
    else acc
  { acc with current_sentences := acc.current_sentences ++ [sentence]
             current_tokens := acc.current_tokens + sent_tokens
             char_pos := acc.char_pos + sent_len }

/-- `ChunkService._split_by_sentences` with the regex split abstracted as
`sentSplit`. -/
def splitBySentences (tok : String → Nat) (sentSplit : String → List String)
    (text : String) (start_char : Int) (start_index : Nat) : List Chunk :=
  let acc := (sentSplit text).foldl (sentStep tok start_index)
    ⟨[], [], 0, start_char, start_char⟩
  if acc.current_sentences ≠ [] then
    acc.chunks ++ [mkChunk tok " " (start_index + acc.chunks.length)
      acc.current_sentences acc.current_start acc.char_pos]
  else acc.chunks

/-- Loop state of `chunk_document`'s paragraph loop. -/
structure ChunkAcc where
  chunks : List Chunk
  current_texts : List String
  current_tokens : Nat
  current_start : Int
  char_position : Int

/-- One iteration of the paragraph loop in `chunk_document`. -/
def chunkStep (tok : String → Nat) (sentSplit : String → List String)
    (acc : ChunkAcc) (para : String) : ChunkAcc :=
  let para_tokens := tok para
  let para_len : Int := (para.length : Int) + 2
  if para_tokens > 1024 then
    let acc :=
      if acc.current_texts ≠ [] then
        { acc with
          chunks := acc.chunks ++ [mkChunk tok "\n\n" acc.chunks.length
            acc.current_texts acc.current_start acc.char_position]
          current_texts := []
          current_tokens := 0
          current_start := acc.char_position }
      else acc
    let sentence_chunks :=
      splitBySentences tok sentSplit para acc.char_position acc.chunks.length
    { acc with chunks := acc.chunks ++ sentence_chunks
               char_position := acc.char_position + para_len
               current_start := acc.char_position + para_len }
  else
    let acc :=
      if acc.current_tokens + para_tokens > 800 ∧ acc.current_texts ≠ [] then
        let flushed := acc.chunks ++ [mkChunk tok "\n\n" acc.chunks.length
          acc.current_texts acc.current_start acc.char_position]
        let ov := getOverlap tok acc.current_texts 120
        { acc with
          chunks := flushed
          current_texts := ov.1
          current_tokens := ov.2
          current_start := acc.char_position -
            (ov.1.map fun t => (t.length : Int) + 2).sum }
      else acc
    { acc with current_texts := acc.current_texts ++ [para]
               current_tokens := acc.current_tokens + para_tokens
               char_position := acc.char_position + para_len }

/-- `ChunkService.chunk_document`.  `none` models the `ChunkingError`
raised on empty or whitespace-only input (`not markdown or not
markdown.strip()`); the final re-indexing pass renumbers the chunks
sequentially from zero. -/
def chunkDocument (tok : String → Nat) (sentSplit : String → List String)
    (markdown : String) : Option (List Chunk) :=
  if markdown.data.isEmpty || markdown.data.all (fun c => c.isWhitespace) then
    none
  else
    let paragraphs := splitParagraphs markdown
    let acc := paragraphs.foldl (chunkStep tok sentSplit) ⟨[], [], 0, 0, 0⟩
    let chunks :=
      if acc.current_texts ≠ [] then
        acc.chunks ++ [mkChunk tok "\n\n" acc.chunks.length
          acc.current_texts acc.current_start acc.char_position]
      else acc.chunks
    some (chunks.mapIdx fun i c => { c with index := i })

/-! ## Theorem for the chunk-token-bounds claim -/

/-- **C3** (`code_bug` evaluation at the failing input).  A document of two
paragraphs, each counting 450 tokens — well under the 1024-token maximum,
so no paragraph is oversized — is split into two chunks, and the *first*
(non-final) chunk has a token count of 450, below the 512-token minimum the
claim (and the repository's own property test
`test_property_1_chunk_token_bounds`) requires.  The token counter here
charges 45 tokens per character, standing in for any tiktoken input with
450-token paragraphs; the flush at `current_tokens + para_tokens > 800`
fires with only 450 tokens buffered. -/
theorem chunker_emits_nonfinal_chunk_below_min :
    (∀ p ∈ splitParagraphs "aaaaaaaaaa\n\nbbbbbbbbbb",
        (fun s : String => 45 * s.length) p ≤ 1024) ∧
    ((chunkDocument (fun s => 45 * s.length) (fun s => [s])
        "aaaaaaaaaa\n\nbbbbbbbbbb").map fun cs =>
          cs.map fun c => c.token_count) = some [450, 450] ∧
    450 < 512 := by
  refine ⟨by decide, by decide, by decide⟩

/-! ## Response cache (`app/services/response_cache.py`)

The `OrderedDict` is modelled as a list of entries, front = oldest
(`popitem(last=False)` pops the head, insertion of a new key appends at the
tail, assignment to an existing key replaces its value in place, and
`move_to_end` moves an entry to the tail).  Each entry additionally carries
a ghost field `last`, the index of the operation that last wrote or hit the
entry; the state carries a matching ghost operation counter `clock`.  The
ghost fields are specification bookkeeping only — no transition reads
them — and serve to state which entry is the least-recently-accessed
one. -/

/-- `CachedResponse` (the cache's dataclass). -/
structure CachedResponse where
  response_text : String
  source_chunks : List RetrievedChunk
  token_count : Nat
  created_at : Int
  hit_count : Nat
deriving DecidableEq, Repr

/-- One `OrderedDict` slot plus the ghost last-access index. -/
structure CacheEntry where
  key : String
  val : CachedResponse
  last : Nat
deriving DecidableEq, Repr

/-- The `ResponseCache` object's state.  `ttl` is in seconds
(`timedelta(hours=ttl_hours)`); `clock` is the ghost operation counter. -/
structure CacheState where
  max_size : Nat
  ttl : Int
  entries : List CacheEntry
  stats_hits : Nat
  stats_misses : Nat
  stats_total : Nat
  clock : Nat
deriving DecidableEq, Repr

/-- `ResponseCache.__init__(max_size, ttl_hours)`. -/
def cacheInit (max_size : Nat) (ttl_hours : Int) : CacheState :=
  { max_size := max_size
    ttl := ttl_hours * 3600
    entries := []
    stats_hits := 0
    stats_misses := 0
    stats_total := 0
    clock := 0 }

/-- `ResponseCache.get`.  Unknown keys and expired entries miss (an expired
entry is deleted as a side effect — `del` of the unique key is written as a
filter, the keys being duplicate-free); a live hit bumps the entry's hit
counter and moves it to the tail (most recently used). -/
def cacheGet (s0 : CacheState) (key : String) (now : Int) :
    Option CachedResponse × CacheState :=
  let s := { s0 with stats_total := s0.stats_total + 1, clock := s0.clock + 1 }
  match s.entries.find? (fun e => e.key == key) with
  | none => (none, { s with stats_misses := s.stats_misses + 1 })
  | some e =>
    if now - e.val.created_at > s.ttl then
      (none, { s with
        entries := s.entries.filter (fun e2 => !(e2.key == key))
        stats_misses := s.stats_misses + 1 })
    else
      let e' : CacheEntry :=
        { key := e.key
          val := { e.val with hit_count := e.val.hit_count + 1 }
          last := s0.clock }
      (some e'.val,
        { s with
          entries := s.entries.filter (fun e2 => !(e2.key == key)) ++ [e']
          stats_hits := s.stats_hits + 1 })

/-- The `OrderedDict` assignment `self._cache[key] = newVal`: an existing
key keeps its position and gets the new value, a new key is appended at the
tail.  `t` is the ghost access index recorded on the written entry. -/
def cacheInsert (l : List CacheEntry) (key : String) (v : CachedResponse)
    (t : Nat) : List CacheEntry :=
  if l.any (fun e => e.key == key) then
    l.map fun e => if e.key == key then { e with val := v, last := t } else e
  else l ++ [{ key := key, val := v, last := t }]

/-- `ResponseCache.set`.  At capacity the head (oldest) entry is popped
first — `popitem(last=False)`, which raises `KeyError` (modelled as `none`)
on an empty dict; the assignment then overwrites an existing key in place
or appends a new key at the tail. -/
def cacheSet (s0 : CacheState) (key : String) (response_text : String)
    (source_chunks : List RetrievedChunk) (token_count : Nat) (now : Int) :
    Option CacheState :=
  let s := { s0 with clock := s0.clock + 1 }
  let newVal : CachedResponse :=
    { response_text := response_text
      source_chunks := source_chunks
      token_count := token_count
      created_at := now
      hit_count := 0 }
  if s.entries.length ≥ s.max_size then
    match s.entries with
    | [] => none
    | _ :: rest => some { s with entries := cacheInsert rest key newVal s0.clock }
  else some { s with entries := cacheInsert s.entries key newVal s0.clock }

/-- One externally visible cache operation. -/
inductive CacheOp where
  | get (key : String) (now : Int)
  | set (key : String) (text : String) (sources : List RetrievedChunk)
      (tokens : Nat) (now : Int)

/-- Apply one operation to the cache state. -/
def cacheStep (s : CacheState) : CacheOp → Option CacheState
  | CacheOp.get k now => some (cacheGet s k now).2
  | CacheOp.set k text srcs tk now => cacheSet s k text srcs tk now

/-- Run a sequence of operations. -/
def cacheRun (s : CacheState) : List CacheOp → Option CacheState
  | [] => some s
  | op :: ops =>
    match cacheStep s op with
    | none => none
    | some s' => cacheRun s' ops

/-- `true` when the operation, applied to this state, is not a `set` whose
key is already present. -/
def opOK (s : CacheState) : CacheOp → Bool
  | CacheOp.set k _ _ _ _ => !(s.entries.any (fun e => e.key == k))
  | CacheOp.get _ _ => true

/-- `true` when no `set` in the sequence targets a key already present in
the cache at the moment of the call. -/
def noOverwrite (s : CacheState) : List CacheOp → Bool
  | [] => true
  | op :: ops =>
    opOK s op && (match cacheStep s op with
      | none => true
      | some s' => noOverwrite s' ops)

/-- Structural invariant of the Python dict: key uniqueness and the
capacity bound. -/
def CacheWF (s : CacheState) : Prop :=
  s.entries.length ≤ s.max_size ∧ (s.entries.map CacheEntry.key).Nodup

/-- Ghost invariant: the entry list is ordered by last access, oldest
first, and all last-access indices precede the current operation index. -/
def GhostSorted (s : CacheState) : Prop :=
  s.entries.Pairwise (fun a b => a.last < b.last) ∧
    ∀ e ∈ s.entries, e.last < s.clock

theorem length_filter_ne_lt (l : List CacheEntry) (key : String)
    (e : CacheEntry) (he : e ∈ l) (hk : e.key = key) :
    (l.filter fun e2 => !(e2.key == key)).length < l.length := by
  have hsub : List.Sublist (l.filter fun e2 => !(e2.key == key)) l :=
    List.filter_sublist l
  refine lt_of_le_of_ne hsub.length_le fun heq => ?_
  have hne : e ∉ l.filter fun e2 => !(e2.key == key) := by
    simp [List.mem_filter, hk]
  exact hne ((hsub.eq_of_length heq).symm ▸ he)

theorem key_not_mem_filter (l : List CacheEntry) (key : String) :
    key ∉ (l.filter fun e2 => !(e2.key == key)).map CacheEntry.key := by
  intro hmem
  obtain ⟨x, hx, hxk⟩ := List.mem_map.mp hmem
  have := (List.mem_filter.mp hx).2
  simp [hxk] at this

theorem cacheStep_max (s : CacheState) (op : CacheOp) (s' : CacheState)
    (h : cacheStep s op = some s') : s'.max_size = s.max_size := by
  cases op with
  | get k now =>
    simp only [cacheStep, Option.some.injEq] at h
    subst h
    unfold cacheGet
    rcases hf : (s.entries.find? fun e => e.key == k) with _ | e
    · simp [hf]
    · simp only [hf]
      split <;> rfl
  | set k text srcs tk now =>
    simp only [cacheStep, cacheSet] at h
    split at h
    · split at h
      · exact absurd h (by simp)
      · simp only [Option.some.injEq] at h; subst h; rfl
    · simp only [Option.some.injEq] at h; subst h; rfl

theorem cacheRun_max (ops : List CacheOp) (s s' : CacheState)
    (h : cacheRun s ops = some s') : s'.max_size = s.max_size := by
  induction ops generalizing s with
  | nil => simp [cacheRun] at h; subst h; rfl
  | cons op ops ih =>
    simp only [cacheRun] at h
    rcases hs : cacheStep s op with _ | s1
    · rw [hs] at h; simp at h
    · rw [hs] at h
      exact (ih s1 h).trans (cacheStep_max s op s1 hs)

theorem cacheInsert_length (l : List CacheEntry) (key : String)
    (v : CachedResponse) (t : Nat) :
    (cacheInsert l key v t).length =
      if l.any (fun e => e.key == key) then l.length else l.length + 1 := by
  unfold cacheInsert
  split <;> simp

theorem cacheInsert_keys_of_mem (l : List CacheEntry) (key : String)
    (v : CachedResponse) (t : Nat)
    (h : l.any (fun e => e.key == key) = true) :
    (cacheInsert l key v t).map CacheEntry.key = l.map CacheEntry.key := by
  unfold cacheInsert
  rw [if_pos h, List.map_map]
  apply List.map_congr_left
  intro e _
  by_cases hk : e.key = key <;> simp [hk]

theorem cacheInsert_keys_of_not_mem (l : List CacheEntry) (key : String)
    (v : CachedResponse) (t : Nat)
    (h : l.any (fun e => e.key == key) = false) :
    (cacheInsert l key v t).map CacheEntry.key =
      l.map CacheEntry.key ++ [key] := by
  unfold cacheInsert
  rw [if_neg (by simp [h]), List.map_append]
  rfl

theorem cacheInsert_nodup (l : List CacheEntry) (key : String)
    (v : CachedResponse) (t : Nat)
    (hn : (l.map CacheEntry.key).Nodup) :
    ((cacheInsert l key v t).map CacheEntry.key).Nodup := by
  rcases hany : l.any (fun e => e.key == key) with _ | _
  · rw [cacheInsert_keys_of_not_mem l key v t hany]
    rw [List.nodup_append]
    refine ⟨hn, List.nodup_singleton key, ?_⟩
    intro a ha hb
    simp only [List.mem_singleton] at hb
    subst hb
    obtain ⟨x, hx, hxk⟩ := List.mem_map.mp ha
    have := List.any_eq_false.mp hany x hx
    simp [hxk] at this
  · rw [cacheInsert_keys_of_mem l key v t hany]
    exact hn

/-- Any transition preserves key uniqueness and the capacity bound. -/
theorem cacheStep_wf (s : CacheState) (op : CacheOp) (s' : CacheState)
    (hwf : CacheWF s) (h : cacheStep s op = some s') : CacheWF s' := by
  obtain ⟨hlen, hnodup⟩ := hwf
  cases op with
  | get k now =>
    simp only [cacheStep, Option.some.injEq] at h
    subst h
    simp only [cacheGet]
    rcases hf : (s.entries.find? fun e => e.key == k) with _ | e
    · simp only [hf]
      exact ⟨hlen, hnodup⟩
    · have hmem : e ∈ s.entries := List.mem_of_find?_eq_some hf
      have hkey : e.key = k := by
        have := List.find?_some hf
        simpa using this
      have hsub : List.Sublist (s.entries.filter fun e2 => !(e2.key == k))
          s.entries := List.filter_sublist s.entries
      simp only [hf]
      split
      · exact ⟨le_trans hsub.length_le hlen,
          (hsub.map CacheEntry.key).nodup hnodup⟩
      · constructor
        · simp only [List.length_append, List.length_cons, List.length_nil]
          have := length_filter_ne_lt s.entries k e hmem hkey
          omega
        · rw [List.map_append, List.nodup_append]
          refine ⟨(hsub.map CacheEntry.key).nodup hnodup,
            List.nodup_singleton _, ?_⟩
          intro a ha hb
          simp only [List.map_cons, List.map_nil, List.mem_singleton] at hb
          subst hb
          exact key_not_mem_filter s.entries k (hkey ▸ ha)
  | set k text srcs tk now =>
    simp only [cacheStep, cacheSet] at h
    split at h
    · rename_i hge
      rcases hent : s.entries with _ | ⟨f, rest⟩
      · rw [hent] at h; simp at h
      · rw [hent] at h
        simp only [Option.some.injEq] at h
        subst h
        rw [hent] at hlen hnodup hge
        have hrest : (rest.map CacheEntry.key).Nodup := by
          simpa using (List.nodup_cons.mp (by simpa using hnodup)).2
        refine ⟨?_, cacheInsert_nodup _ _ _ _ hrest⟩
        simp only at hge ⊢
        rw [cacheInsert_length]
        split <;> (simp at hge hlen ⊢; omega)
    · rename_i hge
      simp only [Option.some.injEq] at h
      subst h
      refine ⟨?_, cacheInsert_nodup _ _ _ _ hnodup⟩
      simp only at hge ⊢
      rw [cacheInsert_length]
      split
      · exact hlen
      · simp at hge; omega

theorem cacheRun_wf (ops : List CacheOp) (s s' : CacheState)
    (hwf : CacheWF s) (h : cacheRun s ops = some s') : CacheWF s' := by
  induction ops generalizing s with
  | nil => simp [cacheRun] at h; subst h; exact hwf
  | cons op ops ih =>
    simp only [cacheRun] at h
    rcases hs : cacheStep s op with _ | s1
    · rw [hs] at h; simp at h
    · rw [hs] at h
      exact ih s1 (cacheStep_wf s op s1 hwf hs) h

/-- A non-overwriting transition keeps the entry list sorted by ghost
last-access index. -/
theorem cacheStep_ghost (s : CacheState) (op : CacheOp) (s' : CacheState)
    (hg : GhostSorted s) (hok : opOK s op = true)
    (h : cacheStep s op = some s') : GhostSorted s' := by
  obtain ⟨hpw, hbound⟩ := hg
  cases op with
  | get k now =>
    simp only [cacheStep, Option.some.injEq] at h
    subst h
    simp only [cacheGet]
    rcases hf : (s.entries.find? fun e => e.key == k) with _ | e
    · simp only [hf]
      exact ⟨hpw, fun e he => lt_trans (hbound e he) (Nat.lt_succ_self _)⟩
    · have hsub : List.Sublist (s.entries.filter fun e2 => !(e2.key == k))
          s.entries := List.filter_sublist s.entries
      simp only [hf]
      split
      · refine ⟨hpw.sublist hsub, fun e2 he2 => ?_⟩
        exact lt_trans (hbound e2 (hsub.mem he2)) (Nat.lt_succ_self _)
      · constructor
        · rw [List.pairwise_append]
          refine ⟨hpw.sublist hsub, List.pairwise_singleton _ _, ?_⟩
          intro a ha b hb
          simp only [List.mem_singleton] at hb
          subst hb
          exact hbound a (hsub.mem ha)
        · intro e2 he2
          rcases List.mem_append.mp he2 with h2 | h2
          · exact lt_trans (hbound e2 (hsub.mem h2)) (Nat.lt_succ_self _)
          · simp only [List.mem_singleton] at h2
            subst h2
            exact Nat.lt_succ_self _
  | set k text srcs tk now =>
    simp only [opOK, Bool.not_eq_true'] at hok
    have hany : ∀ e ∈ s.entries, ¬ e.key = k := by
      intro e he
      have := List.any_eq_false.mp hok e he
      simpa using this
    simp only [cacheStep, cacheSet] at h
    split at h
    · rcases hent : s.entries with _ | ⟨f, rest⟩
      · rw [hent] at h; simp at h
      · rw [hent] at h
        simp only [Option.some.injEq] at h
        subst h
        rw [hent] at hpw hbound hany
        have hrest : rest.any (fun e => e.key == k) = false := by
          rw [List.any_eq_false]
          intro e he
          simpa using hany e (List.mem_cons_of_mem f he)
        simp only [cacheInsert, hrest, Bool.false_eq_true, if_false]
        constructor
        · rw [List.pairwise_append]
          refine ⟨(List.pairwise_cons.mp hpw).2, List.pairwise_singleton _ _, ?_⟩
          intro a ha b hb
          simp only [List.mem_singleton] at hb
          subst hb
          exact hbound a (List.mem_cons_of_mem f ha)
        · intro e2 he2
          rcases List.mem_append.mp he2 with h2 | h2
          · exact lt_trans (hbound e2 (List.mem_cons_of_mem f h2)) (Nat.lt_succ_self _)
          · simp only [List.mem_singleton] at h2
            subst h2
            exact Nat.lt_succ_self _
    · simp only [Option.some.injEq] at h
      subst h
      have hfalse : s.entries.any (fun e => e.key == k) = false := by
        rw [List.any_eq_false]
        intro e he
        simpa using hany e he
      simp only [cacheInsert, hfalse, Bool.false_eq_true, if_false]
      constructor
      · rw [List.pairwise_append]
        refine ⟨hpw, List.pairwise_singleton _ _, ?_⟩
        intro a ha b hb
        simp only [List.mem_singleton] at hb
        subst hb
        exact hbound a ha
      · intro e2 he2
        rcases List.mem_append.mp he2 with h2 | h2
        · exact lt_trans (hbound e2 h2) (Nat.lt_succ_self _)
        · simp only [List.mem_singleton] at h2
          subst h2
          exact Nat.lt_succ_self _

theorem cacheRun_ghost (ops : List CacheOp) (s s' : CacheState)
    (hg : GhostSorted s) (hno : noOverwrite s ops = true)
    (h : cacheRun s ops = some s') : GhostSorted s' := by
  induction ops generalizing s with
  | nil => simp [cacheRun] at h; subst h; exact hg
  | cons op ops ih =>
    simp only [cacheRun] at h
    simp only [noOverwrite, Bool.and_eq_true] at hno
    rcases hs : cacheStep s op with _ | s1
    · rw [hs] at h; simp at h
    · rw [hs] at h
      have hno1 : noOverwrite s1 ops = true := by
        have := hno.2
        rw [hs] at this
        exact this
      exact ih s1 (cacheStep_ghost s op s1 hg hno.1 hs) hno1 h

/-- **C7, counterexample.** With `max_size = 3`, the sequence
set a, set b, set c, set b (overwrite), set d leaves entries
`b, c, d` with ghost last-access indices `3, 2, 4`: the overwrite of `b`
refreshed its access but left it at the front of the `OrderedDict`.  The
next `set e` at capacity evicts the front entry `b` — yet `c`, still
present afterwards, was accessed at index `2 < 3`, i.e. less recently than
`b`.  So the entry evicted is not the least-recently-accessed one. -/
theorem cache_eviction_not_least_recently_accessed :
    ((cacheRun (cacheInit 3 24)
        [CacheOp.set "a" "t" [] 1 0, CacheOp.set "b" "t" [] 1 1,
         CacheOp.set "c" "t" [] 1 2, CacheOp.set "b" "t2" [] 1 3,
         CacheOp.set "d" "t" [] 1 4]).map fun s =>
        s.entries.map fun e => (e.key, e.last)) =
      some [("b", 3), ("c", 2), ("d", 4)] ∧
    ((cacheRun (cacheInit 3 24)
        [CacheOp.set "a" "t" [] 1 0, CacheOp.set "b" "t" [] 1 1,
         CacheOp.set "c" "t" [] 1 2, CacheOp.set "b" "t2" [] 1 3,
         CacheOp.set "d" "t" [] 1 4, CacheOp.set "e" "t" [] 1 5]).map
        fun s => s.entries.map CacheEntry.key) = some ["c", "d", "e"] ∧
    (2 : Nat) < 3 := by
  refine ⟨by decide, by decide, by decide⟩

/-- **C7, amended.** After any sequence of `set` and `get` operations from
a fresh cache, the number of stored entries never exceeds `max_size`; a
`set` of an absent key while at capacity evicts exactly the front (oldest)
entry of the order; and provided no `set` in the sequence overwrote an
already-present key, the entries are ordered by ghost last-access index
(a non-expired `get` moves its entry to the back), so the front entry —
the one `set` evicts at capacity — is the least-recently-accessed one. -/
theorem cache_capacity_bound_and_lru_eviction
    (max_size : Nat) (ttl_hours : Int) (ops : List CacheOp) (s : CacheState)
    (hrun : cacheRun (cacheInit max_size ttl_hours) ops = some s) :
    s.entries.length ≤ max_size ∧
    (∀ (k text : String) (srcs : List RetrievedChunk) (tk : Nat) (now : Int)
        (s' : CacheState),
      k ∉ s.entries.map CacheEntry.key →
      max_size ≤ s.entries.length →
      cacheSet s k text srcs tk now = some s' →
      s'.entries.map CacheEntry.key =
        (s.entries.map CacheEntry.key).tail ++ [k]) ∧
    (noOverwrite (cacheInit max_size ttl_hours) ops = true →
      s.entries.Pairwise (fun a b => a.last < b.last) ∧
      ∀ f ∈ s.entries.head?, ∀ e ∈ s.entries, f.last ≤ e.last) := by
  have hinitwf : CacheWF (cacheInit max_size ttl_hours) := by
    constructor <;> simp [cacheInit]
  have hwf := cacheRun_wf ops _ s hinitwf hrun
  have hmax : s.max_size = max_size := by
    simpa [cacheInit] using cacheRun_max ops _ s hrun
  refine ⟨hmax ▸ hwf.1, ?_, ?_⟩
  · intro k text srcs tk now s' hknot hcap hset
    simp only [cacheSet] at hset
    rw [if_pos (by simpa [hmax] using hcap)] at hset
    rcases hent : s.entries with _ | ⟨f, rest⟩
    · rw [hent] at hset; simp at hset
    · rw [hent] at hset
      simp only [Option.some.injEq] at hset
      subst hset
      rw [hent] at hknot
      have hrest : rest.any (fun e => e.key == k) = false := by
        rw [List.any_eq_false]
        intro e he hk
        exact hknot (by
          simp only [List.map_cons, List.mem_cons]
          exact Or.inr (List.mem_map.mpr ⟨e, he, by simpa using hk⟩))
      simp only [hent, List.map_cons, List.tail_cons]
      exact cacheInsert_keys_of_not_mem rest k _ s.clock hrest
  · intro hno
    have hinitg : GhostSorted (cacheInit max_size ttl_hours) := by
      constructor <;> simp [cacheInit]
    have hg := cacheRun_ghost ops _ s hinitg hno hrun
    refine ⟨hg.1, ?_⟩
    intro f hf e he
    obtain ⟨hg1, -⟩ := hg
    rcases hent : s.entries with _ | ⟨f0, rest⟩
    · rw [hent] at hf; simp at hf
    · rw [hent] at hf
      simp only [List.head?_cons, Option.mem_def, Option.some.injEq] at hf
      subst hf
      rw [hent] at he hg1
      rcases List.mem_cons.mp he with h1 | h1
      · subst h1; exact le_refl _
      · exact le_of_lt ((List.pairwise_cons.mp hg1).1 e h1)

/-- Closed witness for `cache_capacity_bound_and_lru_eviction`: two fresh
sets into a capacity-2 cache give a state of 2 entries ordered by
last-access index. -/
theorem cache_capacity_bound_and_lru_eviction_witness :
    let S : CacheState :=
      { max_size := 2, ttl := 86400
        entries := [⟨"a", ⟨"ta", [], 5, 0, 0⟩, 0⟩, ⟨"b", ⟨"tb", [], 6, 1, 0⟩, 1⟩]
        stats_hits := 0, stats_misses := 0, stats_total := 0, clock := 2 }
    S.entries.length ≤ 2 ∧ S.entries.Pairwise (fun a b => a.last < b.last) := by
  intro S
  have h := cache_capacity_bound_and_lru_eviction 2 24
    [CacheOp.set "a" "ta" [] 5 0, CacheOp.set "b" "tb" [] 6 1] S (by decide)
  exact ⟨h.1, (h.2.2 (by decide)).1⟩

/-- **C10, counterexample.** With `max_size = 1`, after `set "a"` the cache
is at capacity and `"a"` is present; a second `set "a"` pops the front
entry — which is `"a"` itself, not an unrelated entry — and then re-inserts
`"a"`, leaving the cache with `1 ≠ max_size - 1 = 0` entries. -/
theorem overwrite_of_front_key_keeps_size :
    ((cacheRun (cacheInit 1 24) [CacheOp.set "a" "t1" [] 1 0]).map fun s =>
        (s.entries.map CacheEntry.key, s.entries.length)) = some (["a"], 1) ∧
    ((cacheRun (cacheInit 1 24)
        [CacheOp.set "a" "t1" [] 1 0, CacheOp.set "a" "t2" [] 1 1]).map
        fun s => s.entries.length) = some 1 ∧
    (1 : Nat) ≠ 1 - 1 := by
  refine ⟨by decide, by decide, by decide⟩

/-- **C10, amended.** If `set(key, …)` is called while the cache holds
`max_size` entries and `key` is present *but is not itself the front
(least-recently-used) entry*, then the front entry is still evicted, the
write succeeds, and the cache is left with `max_size - 1` entries: the
result is exactly the tail of the entry list with the written key's value
replaced in place, so every entry other than the evicted front and the
written key is unchanged (and keeps its position). -/
theorem set_overwrite_at_capacity_evicts_front
    (s : CacheState) (k text : String) (srcs : List RetrievedChunk)
    (tk : Nat) (now : Int) (f : CacheEntry)
    (hhead : s.entries.head? = some f)
    (hcap : s.entries.length = s.max_size)
    (hnodup : (s.entries.map CacheEntry.key).Nodup)
    (hfk : f.key ≠ k)
    (hmem : k ∈ s.entries.map CacheEntry.key) :
    ∃ s', cacheSet s k text srcs tk now = some s' ∧
      s'.entries.length = s.max_size - 1 ∧
      f.key ∉ s'.entries.map CacheEntry.key ∧
      s'.entries = s.entries.tail.map (fun e =>
        if e.key == k then
          { e with val := ⟨text, srcs, tk, now, 0⟩, last := s.clock }
        else e) ∧
      ∀ e ∈ s.entries.tail, e.key ≠ k → e ∈ s'.entries := by
  rcases hent : s.entries with _ | ⟨f0, rest⟩
  · rw [hent] at hhead; simp at hhead
  · rw [hent] at hhead
    simp only [List.head?_cons, Option.some.injEq] at hhead
    subst hhead
    rw [hent] at hcap hnodup hmem
    have hkrest : k ∈ rest.map CacheEntry.key := by
      rw [List.map_cons] at hmem
      rcases List.mem_cons.mp hmem with h1 | h1
      · exact absurd h1.symm hfk
      · exact h1
    have hany : rest.any (fun e => e.key == k) = true := by
      rw [List.any_eq_true]
      obtain ⟨e, he, hek⟩ := List.mem_map.mp hkrest
      exact ⟨e, he, by simpa using hek⟩
    refine ⟨{ s with
        entries := cacheInsert rest k ⟨text, srcs, tk, now, 0⟩ s.clock
        clock := s.clock + 1 }, ?_, ?_, ?_, ?_, ?_⟩
    · simp only [cacheSet]
      rw [if_pos (by simp [hent, ← hcap]), hent]
    · simp only [cacheInsert, hany, if_true, List.length_map]
      simp only [List.length_cons] at hcap
      omega
    · simp only [cacheInsert, hany, if_true]
      rw [show ((rest.map fun e =>
          if e.key == k then
            { e with val := ⟨text, srcs, tk, now, 0⟩, last := s.clock }
          else e).map CacheEntry.key) = rest.map CacheEntry.key from ?_]
      · intro hmemf
        rw [List.map_cons] at hnodup
        exact (List.nodup_cons.mp hnodup).1 hmemf
      · rw [List.map_map]
        apply List.map_congr_left
        intro e _
        by_cases hk : e.key = k <;> simp [hk]
    · simp [cacheInsert, hany, hent]
    · intro e he hek
      simp only [List.tail_cons] at he
      simp only [cacheInsert, hany, if_true]
      refine List.mem_map.mpr ⟨e, he, ?_⟩
      simp [hek]

/-- Closed witness for `set_overwrite_at_capacity_evicts_front`: a
capacity-2 cache holding `a` (front) and `b`; `set "b"` evicts `a` and
leaves one entry. -/
theorem set_overwrite_at_capacity_evicts_front_witness :
    ∃ s', cacheSet
        { max_size := 2, ttl := 86400
          entries := [⟨"a", ⟨"ta", [], 5, 0, 0⟩, 0⟩, ⟨"b", ⟨"tb", [], 6, 1, 0⟩, 1⟩]
          stats_hits := 0, stats_misses := 0, stats_total := 0, clock := 2 }
        "b" "t2" [] 7 5 = some s' ∧
      s'.entries.length = 2 - 1 := by
  obtain ⟨s', h1, h2, -, -, -⟩ := set_overwrite_at_capacity_evicts_front
    { max_size := 2, ttl := 86400
      entries := [⟨"a", ⟨"ta", [], 5, 0, 0⟩, 0⟩, ⟨"b", ⟨"tb", [], 6, 1, 0⟩, 1⟩]
      stats_hits := 0, stats_misses := 0, stats_total := 0, clock := 2 }
    "b" "t2" [] 7 5 ⟨"a", ⟨"ta", [], 5, 0, 0⟩, 0⟩
    (by decide) (by decide) (by decide) (by decide) (by decide)
  exact ⟨s', h1, h2⟩

/-! ## Cache key computation (`ResponseCache.compute_key`)

`compute_key` builds the string
`f"{query}:{','.join(sorted(set(document_ids)))}{focus_hash}"` — where
`focus_hash` is `f":{start_char}:{end_char}"` when a focus context is
present and `""` otherwise — and returns its sha256 hex digest.  The
digest (`hashlib`, an external primitive) is modelled as a function
parameter `h`; Python's decimal rendering of an `int` is modelled by
`pyIntStr`. -/

/-- One decimal digit as a character. -/
def decDigitChar (d : Nat) : Char :=
  match d with
  | 0 => '0' | 1 => '1' | 2 => '2' | 3 => '3' | 4 => '4'
  | 5 => '5' | 6 => '6' | 7 => '7' | 8 => '8' | 9 => '9'
  | _ => '?'

/-- Python's `str(n)` for a natural number: the base-10 digits, most
significant first. -/
def pyNatStr (n : Nat) : String :=
  if n = 0 then "0"
  else String.mk ((Nat.digits 10 n).reverse.map decDigitChar)

/-- Python's `str(i)` for an arbitrary `int`: a `-` sign followed by the
digits when negative. -/
def pyIntStr (i : Int) : String :=
  if i < 0 then String.mk ('-' :: (pyNatStr i.natAbs).data)
  else pyNatStr i.toNat

/-- The `focus_hash` component: `f":{start_char}:{end_char}"` when a focus
context is supplied, `""` otherwise. -/
def focusHash : Option (Int × Int) → String
  | none => ""
  | some (a, b) => ":" ++ pyIntStr a ++ ":" ++ pyIntStr b

/-- `sorted(set(document_ids))`: the duplicate-free document ids in
lexicographic order. -/
def sortedDocumentIds (ids : List String) : List String :=
  ids.toFinset.sort (· ≤ ·)

/-- The string `compute_key` hashes:
`f"{query}:{','.join(normalized_docs)}{focus_hash}"`. -/
def computeKeyContent (query : String) (ids : List String)
    (focus : Option (Int × Int)) : String :=
  query ++ ":" ++ String.intercalate "," (sortedDocumentIds ids) ++
    focusHash focus

/-- `ResponseCache.compute_key`, with the sha256 hex digest abstracted as
`h`. -/
def computeKey (h : String → String) (query : String) (ids : List String)
    (focus : Option (Int × Int)) : String :=
  h (computeKeyContent query ids focus)

theorem decDigitChar_ne_colon (d : Nat) : decDigitChar d ≠ ':' := by
  rcases d with _|_|_|_|_|_|_|_|_|_|d
  · decide
  · decide
  · decide
  · decide
  · decide
  · decide
  · decide
  · decide
  · decide
  · decide
  · show ('?' : Char) ≠ ':'
    decide

theorem decDigitChar_ne_minus (d : Nat) : decDigitChar d ≠ '-' := by
  rcases d with _|_|_|_|_|_|_|_|_|_|d
  · decide
  · decide
  · decide
  · decide
  · decide
  · decide
  · decide
  · decide
  · decide
  · decide
  · show ('?' : Char) ≠ '-'
    decide

theorem decDigitChar_inj_lt :
    ∀ d < 10, ∀ e < 10, decDigitChar d = decDigitChar e → d = e := by decide

theorem map_decDigitChar_inj (l1 : List Nat) :
    ∀ (l2 : List Nat), (∀ x ∈ l1, x < 10) → (∀ x ∈ l2, x < 10) →
      l1.map decDigitChar = l2.map decDigitChar → l1 = l2 := by
  induction l1 with
  | nil =>
    intro l2 _ _ h
    cases l2 with
    | nil => rfl
    | cons b m => simp at h
  | cons a l ih =>
    intro l2 h1 h2 h
    cases l2 with
    | nil => simp at h
    | cons b m =>
      simp only [List.map_cons, List.cons.injEq] at h
      have hab : a = b :=
        decDigitChar_inj_lt a (h1 a (List.mem_cons_self a l)) b
          (h2 b (List.mem_cons_self b m)) h.1
      subst hab
      rw [ih m (fun x hx => h1 x (List.mem_cons_of_mem a hx))
        (fun x hx => h2 x (List.mem_cons_of_mem a hx)) h.2]

theorem pyNatStr_mem_ne_colon (n : Nat) :
    ∀ c ∈ (pyNatStr n).data, c ≠ ':' := by
  intro c hc
  by_cases h : n = 0
  · subst h
    simp only [pyNatStr, if_pos rfl] at hc
    have : c = '0' := by simpa using hc
    subst this
    decide
  · simp only [pyNatStr, if_neg h] at hc
    obtain ⟨d, _, rfl⟩ := List.mem_map.mp hc
    exact decDigitChar_ne_colon d

theorem pyNatStr_mem_ne_minus (n : Nat) :
    ∀ c ∈ (pyNatStr n).data, c ≠ '-' := by
  intro c hc
  by_cases h : n = 0
  · subst h
    simp only [pyNatStr, if_pos rfl] at hc
    have : c = '0' := by simpa using hc
    subst this
    decide
  · simp only [pyNatStr, if_neg h] at hc
    obtain ⟨d, _, rfl⟩ := List.mem_map.mp hc
    exact decDigitChar_ne_minus d

theorem pyNatStr_data_ne_nil (n : Nat) : (pyNatStr n).data ≠ [] := by
  by_cases h : n = 0
  · subst h
    simp [pyNatStr]
  · simp only [pyNatStr, if_neg h]
    simp [Nat.digits_ne_nil_iff_ne_zero.mpr h]

theorem pyNatStr_ne_pyNatStr_zero (n : Nat) (hn : n ≠ 0) :
    pyNatStr n ≠ pyNatStr 0 := by
  intro h
  have hd := congrArg String.data h
  simp only [pyNatStr, if_neg hn, if_pos rfl] at hd
  have hlen : (Nat.digits 10 n).length = 1 := by
    have := congrArg List.length hd
    simpa using this
  obtain ⟨a, ha⟩ := List.length_eq_one.mp hlen
  have halt : a < 10 := Nat.digits_lt_base (by norm_num) (by rw [ha]; simp)
  have hchar : decDigitChar a = '0' := by
    rw [ha] at hd
    simpa using hd
  have ha0 : a = 0 := decDigitChar_inj_lt a halt 0 (by norm_num)
    (by simpa using hchar)
  subst ha0
  have hof := Nat.ofDigits_digits 10 n
  rw [ha] at hof
  simp [Nat.ofDigits_cons, Nat.ofDigits_nil] at hof
  exact hn hof.symm

theorem pyNatStr_inj : Function.Injective pyNatStr := by
  intro m n h
  by_cases hm : m = 0 <;> by_cases hn : n = 0
  · subst hm; subst hn; rfl
  · subst hm
    exact absurd h.symm (pyNatStr_ne_pyNatStr_zero n hn)
  · subst hn
    exact absurd h (pyNatStr_ne_pyNatStr_zero m hm)
  · have hd := congrArg String.data h
    simp only [pyNatStr, if_neg hm, if_neg hn] at hd
    have h3 : (Nat.digits 10 m).reverse = (Nat.digits 10 n).reverse := by
      apply map_decDigitChar_inj
      · intro x hx
        exact Nat.digits_lt_base (by norm_num) (List.mem_reverse.mp hx)
      · intro x hx
        exact Nat.digits_lt_base (by norm_num) (List.mem_reverse.mp hx)
      · exact hd
    exact Nat.digits.injective 10 (List.reverse_injective h3)

theorem pyIntStr_mem_ne_colon (i : Int) :
    ∀ c ∈ (pyIntStr i).data, c ≠ ':' := by
  intro c hc
  unfold pyIntStr at hc
  split at hc
  · rcases List.mem_cons.mp hc with h1 | h1
    · subst h1; decide
    · exact pyNatStr_mem_ne_colon i.natAbs c h1
  · exact pyNatStr_mem_ne_colon i.toNat c hc

theorem pyIntStr_inj : Function.Injective pyIntStr := by
  intro i j h
  unfold pyIntStr at h
  by_cases hi : i < 0 <;> by_cases hj : j < 0
  · rw [if_pos hi, if_pos hj] at h
    have hd := congrArg String.data h
    simp only [List.cons.injEq] at hd
    have := pyNatStr_inj (String.ext hd.2)
    omega
  · rw [if_pos hi, if_neg hj] at h
    exfalso
    have hd := congrArg String.data h
    have hmem : '-' ∈ (pyNatStr j.toNat).data := by
      rw [← hd]
      exact List.mem_cons_self _ _
    exact pyNatStr_mem_ne_minus j.toNat '-' hmem rfl
  · rw [if_neg hi, if_pos hj] at h
    exfalso
    have hd := congrArg String.data h
    have hmem : '-' ∈ (pyNatStr i.toNat).data := by
      rw [hd]
      exact List.mem_cons_self _ _
    exact pyNatStr_mem_ne_minus i.toNat '-' hmem rfl
  · rw [if_neg hi, if_neg hj] at h
    have := pyNatStr_inj h
    omega

/-- Splitting a character list at a colon is unambiguous when neither
prefix contains a colon. -/
theorem append_colon_inj (A : List Char) :
    ∀ (C B D : List Char),
      (∀ c ∈ A, c ≠ ':') → (∀ c ∈ C, c ≠ ':') →
      A ++ ':' :: B = C ++ ':' :: D → A = C ∧ B = D := by
  induction A with
  | nil =>
    intro C B D _ hC h
    cases C with
    | nil => simpa using h
    | cons c cs =>
      simp only [List.nil_append, List.cons_append, List.cons.injEq] at h
      exact absurd h.1.symm (hC c (List.mem_cons_self c cs))
  | cons a as ih =>
    intro C B D hA hC h
    cases C with
    | nil =>
      simp only [List.cons_append, List.nil_append, List.cons.injEq] at h
      exact absurd h.1 (hA a (List.mem_cons_self a as))
    | cons c cs =>
      simp only [List.cons_append, List.cons.injEq] at h
      obtain ⟨h1, h2⟩ := h
      subst h1
      obtain ⟨h3, h4⟩ := ih cs B D
        (fun x hx => hA x (List.mem_cons_of_mem a hx))
        (fun x hx => hC x (List.mem_cons_of_mem a hx)) h2
      exact ⟨by rw [h3], h4⟩

theorem focusHash_some_inj (a b c d : Int)
    (h : focusHash (some (a, b)) = focusHash (some (c, d))) :
    a = c ∧ b = d := by
  have hd := congrArg String.data h
  simp only [focusHash, String.data_append, List.append_assoc] at hd
  simp only [List.cons_append, List.nil_append, List.cons.injEq, true_and] at hd
  obtain ⟨h1, h2⟩ := append_colon_inj (pyIntStr a).data (pyIntStr c).data
    (pyIntStr b).data (pyIntStr d).data
    (pyIntStr_mem_ne_colon a) (pyIntStr_mem_ne_colon c) hd
  exact ⟨pyIntStr_inj (String.ext h1), pyIntStr_inj (String.ext h2)⟩

/-- **C6.** `compute_key` is deterministic and key-separating: for any
injective digest `h` (the sha256 hex digest, collision-free in the model),
(1) equal queries with equal document-id *sets* — regardless of list order
or duplication — and equal focus contexts give equal keys; (2) with the
document list and focus held fixed, different query texts give different
keys; and (3) with the query and document list held fixed, different focus
start/end offset pairs give different keys. -/
theorem compute_key_pure_and_sensitive
    (h : String → String) (hinj : Function.Injective h) :
    (∀ (q : String) (ids1 ids2 : List String) (f : Option (Int × Int)),
        ids1.toFinset = ids2.toFinset →
        computeKey h q ids1 f = computeKey h q ids2 f) ∧
    (∀ (q q' : String) (ids : List String) (f : Option (Int × Int)),
        q ≠ q' → computeKey h q ids f ≠ computeKey h q' ids f) ∧
    (∀ (q : String) (ids : List String) (a b c d : Int),
        (a, b) ≠ (c, d) →
        computeKey h q ids (some (a, b)) ≠ computeKey h q ids (some (c, d))) := by
  refine ⟨?_, ?_, ?_⟩
  · intro q ids1 ids2 f hset
    unfold computeKey computeKeyContent sortedDocumentIds
    rw [hset]
  · intro q q' ids f hne heq
    apply hne
    have hc := hinj heq
    unfold computeKeyContent at hc
    have hd := congrArg String.data hc
    simp only [String.data_append, List.append_assoc] at hd
    exact String.ext (List.append_cancel_right hd)
  · intro q ids a b c d hne heq
    apply hne
    have hc := hinj heq
    unfold computeKeyContent at hc
    have hd := congrArg String.data hc
    simp only [String.data_append, List.append_assoc] at hd
    have hfoc := List.append_cancel_left (List.append_cancel_left
      (List.append_cancel_left hd))
    obtain ⟨h1, h2⟩ := focusHash_some_inj a b c d (String.ext hfoc)
    rw [h1, h2]

/-- Closed witness for `compute_key_pure_and_sensitive` at the identity
digest: reordered and duplicated document lists agree, and both a changed
query and a changed focus offset change the key. -/
theorem compute_key_pure_and_sensitive_witness :
    computeKey id "q" ["d2", "d1", "d2"] none =
      computeKey id "q" ["d1", "d2"] none ∧
    computeKey id "q" ["d1"] none ≠ computeKey id "r" ["d1"] none ∧
    computeKey id "q" ["d1"] (some (3, 9)) ≠
      computeKey id "q" ["d1"] (some (3, 10)) := by
  have h := compute_key_pure_and_sensitive id (fun x y hxy => hxy)
  exact ⟨h.1 "q" ["d2", "d1", "d2"] ["d1", "d2"] none (by decide),
    h.2.1 "q" "r" ["d1"] none (by decide),
    h.2.2 "q" ["d1"] 3 9 3 10 (by decide)⟩

end KiroSpec
